import Mathlib

/-!
Verification of the quiet-time scheduling window evaluator of the `hx`
configuration component (`hx/cfg.py`, functions `qt_parse`, `quiet_time`,
`read`, together with `hx/util.py` helpers `csv_list` and `daybase`).

The Python code is shallowly embedded: strings are lists of characters,
epoch timestamps are integers, Python exceptions are `Except String`
results, and the lazily attached `_qt_list` instance attribute is an
explicit `Option` field of a small configuration-state record.  Local
civil time is modelled as a fixed offset `tz` from the epoch scale (no
daylight-saving transitions), so `time.localtime` / `time.mktime`
arithmetic becomes explicit integer arithmetic.
-/

namespace Hx

/-- Decidable equality for `Except`, so concrete runs of the embedded
code can be checked by `decide`. -/
instance instDecEqExcept {ε α : Type} [DecidableEq ε] [DecidableEq α] :
    DecidableEq (Except ε α)
  | .ok a, .ok b =>
    if h : a = b then .isTrue (by rw [h])
    else .isFalse (fun hc => by cases hc; exact h rfl)
  | .ok _, .error _ => .isFalse (fun hc => by cases hc)
  | .error _, .ok _ => .isFalse (fun hc => by cases hc)
  | .error e, .error f =>
    if h : e = f then .isTrue (by rw [h])
    else .isFalse (fun hc => by cases hc; exact h rfl)

/-- Characters removed by Python `str.strip()`. -/
def isPySpace (c : Char) : Bool :=
  c = ' ' || c = '\t' || c = '\n' || c = '\r' || c = '\x0b' || c = '\x0c'

/-- Python `str.strip()`: drop leading and trailing whitespace. -/
def pyStrip (cs : List Char) : List Char :=
  ((cs.dropWhile isPySpace).reverse.dropWhile isPySpace).reverse

/-- Python `str.split(",")`: split on every comma, keeping empty pieces. -/
def splitComma : List Char → List (List Char)
  | [] => [[]]
  | c :: rest =>
    if c = ',' then [] :: splitComma rest
    else
      match splitComma rest with
      | [] => [[c]]
      | t :: ts => (c :: t) :: ts

/-- `hx/util.py` `csv_list`: split on the delimiter and strip each piece;
an all-whitespace value yields the empty list. -/
def csv_list (cs : List Char) : List (List Char) :=
  if pyStrip cs = [] then []
  else if (',' : Char) ∈ cs then (splitComma cs).map pyStrip
  else [pyStrip cs]

/-- Substring containment, Python's `needle in haystack` on strings. -/
def hasInfix (n : List Char) : List Char → Bool
  | [] => n.isEmpty
  | c :: t => n.isPrefixOf (c :: t) || hasInfix n t

/-- Numeric value of a digit string, Python `int()` on such groups. -/
def digVal (cs : List Char) : Nat :=
  cs.foldl (fun a c => 10 * a + (c.toNat - 48)) 0

/-- `re.findall("(\d+):(\d+)", spec)`: scan left to right for a maximal
digit run followed by a colon followed by a digit run, collecting the two
captured groups of each non-overlapping match; scanning resumes after each
match.  A fuel argument (initially the string length, which every step
strictly decreases) makes the recursion structural. -/
def findHMA : Nat → List Char → List (List Char × List Char)
  | 0, _ => []
  | _ + 1, [] => []
  | fuel + 1, c :: cs =>
    if c.isDigit then
      match (c :: cs).dropWhile Char.isDigit with
      | [] => findHMA fuel []
      | c2 :: r2 =>
        if c2 = ':' then
          match r2.takeWhile Char.isDigit with
          | [] => findHMA fuel r2
          | d2 => ((c :: cs).takeWhile Char.isDigit, d2) ::
              findHMA fuel (r2.dropWhile Char.isDigit)
        else findHMA fuel (c2 :: r2)
    else findHMA fuel cs

/-- Entry point of the `H+:M+` scanner. -/
def findHM (cs : List Char) : List (List Char × List Char) :=
  findHMA cs.length cs

/-- Month alternative of CPython's `%m` pattern `1[0-2]|0[1-9]|[1-9]`,
two-character branches (the one-character branch is tried later). -/
def m2cand (a b : Char) : Option Nat :=
  if a = '1' && (b = '0' || b = '1' || b = '2') then some (digVal [a, b])
  else if a = '0' && b.isDigit && b != '0' then some (digVal [a, b])
  else none

/-- One-character branch `[1-9]`, shared by `%m` and `%d`. -/
def c1cand (a : Char) : Option Nat :=
  if a.isDigit && a != '0' then some (digVal [a]) else none

/-- Day alternative of CPython's `%d` pattern `3[01]|[12]\d|0[1-9]|[1-9]`,
two-character branches. -/
def d2cand (a b : Char) : Option Nat :=
  if a = '3' && (b = '0' || b = '1') then some (digVal [a, b])
  else if (a = '1' || a = '2') && b.isDigit then some (digVal [a, b])
  else if a = '0' && b.isDigit && b != '0' then some (digVal [a, b])
  else none

/-- Backtracking parse of `%m%d` against the remainder of the token,
in regex alternation order, requiring full consumption of the input
(`time.strptime` rejects unconverted trailing data).  Only splits whose
total length matches can succeed, which bounds the shapes to length 2-4. -/
def parseMD : List Char → Option (Nat × Nat)
  | [a, b] =>
    match c1cand a, c1cand b with
    | some m, some d => some (m, d)
    | _, _ => none
  | [a, b, c] =>
    match m2cand a b, c1cand c with
    | some m, some d => some (m, d)
    | _, _ =>
      match c1cand a, d2cand b c with
      | some m, some d => some (m, d)
      | _, _ => none
  | [a, b, c, d] =>
    match m2cand a b, d2cand c d with
    | some m, some dd => some (m, dd)
    | _, _ => none
  | _ => none

/-- Gregorian leap year. -/
def isLeap (y : Nat) : Bool :=
  (y % 4 = 0 && y % 100 != 0) || y % 400 = 0

/-- Days in a month, used by the `datetime.date` validation that
`time.strptime` performs after the regex match. -/
def daysInMonth (y m : Nat) : Nat :=
  if m = 2 then (if isLeap y then 29 else 28)
  else if m = 4 || m = 6 || m = 9 || m = 11 then 30
  else 31

/-- `time.strptime(spec, "%Y.%m%d")`: four year digits, a literal dot,
then month and day, with calendar validation; `None` models the caught
`ValueError`. -/
def parseYMD : List Char → Option (Nat × Nat × Nat)
  | a :: b :: c :: d :: dot :: rest =>
    if a.isDigit && b.isDigit && c.isDigit && d.isDigit && dot = '.' then
      match parseMD rest with
      | some (m, dy) =>
        let y := digVal [a, b, c, d]
        if 1 ≤ y && dy ≤ daysInMonth y m then some (y, m, dy) else none
      | none => none
    else none
  | _ => none

/-- Days from 1970-01-01 to the given civil date (valid for year ≥ 1). -/
def daysFromCivil (y m d : Nat) : Nat :=
  let yy := if m ≤ 2 then y - 1 else y
  let era := yy / 400
  let yoe := yy - era * 400
  let mp := (m + 9) % 12
  let doy := (153 * mp + 2) / 5 + d - 1
  let doe := yoe * 365 + yoe / 4 - yoe / 100 + doy
  era * 146097 + doe

/-- Signed day count since the Unix epoch. -/
def daysSinceEpoch (y m d : Nat) : Int :=
  (daysFromCivil y m d : Int) - 719468

/-- The string `" monday tuesday ..."` searched by the weekday test. -/
def dowString : List Char :=
  " monday tuesday wednesday thursday friday saturday sunday".toList

/-- The canonical weekday names, `dow_s.strip().split()`, Monday first. -/
def wdayNames : List (List Char) :=
  ["monday".toList, "tuesday".toList, "wednesday".toList, "thursday".toList,
   "friday".toList, "saturday".toList, "sunday".toList]

/-- The dict returned by `qt_parse`: the original token and the keys
`lo`, `hi`, `base`, `iter`. -/
structure QtSpec where
  spec : List Char
  lo : Int
  hi : Int
  base : Int
  iter : Int
deriving DecidableEq

/-- `hx/cfg.py` `qt_parse`: classify one token as a weekday, a date or a
clock-time range, in that order, and normalize it; any failure raises
(here: returns `.error`).  `tz` is the fixed local-time offset used by
`time.mktime` on the parsed date. -/
def qt_parse (tz : Int) (spec : List Char) : Except String QtSpec :=
  let lower := spec.map Char.toLower
  if hasInfix (' ' :: lower) dowString then
    match wdayNames.filter (fun n => hasInfix lower n) with
    | [w] => .ok ⟨spec, 0, 86399, (wdayNames.indexOf w : Int), 604800⟩
    | _ => .error "ValueError: weekday match does not unpack"
  else
    match parseYMD spec with
    | some (y, m, d) => .ok ⟨spec, 0, 86399, 86400 * daysSinceEpoch y m d - tz, 0⟩
    | none =>
      match findHM spec with
      | [(h1, n1), (h2, n2)] =>
        .ok ⟨spec, 60 * (60 * (digVal h1 : Int) + digVal n1),
                   60 * (60 * (digVal h2 : Int) + digVal n2), -1, 86400⟩
      | _ => .error ("qt_parse fails on '" ++ String.mk spec ++ "'")

/-- `hx/util.py` `daybase`: epoch of the local midnight starting the day
that contains `t`, under the fixed-offset local-time model. -/
def daybase (tz : Int) (t : Int) : Int :=
  t - (t + tz) % 86400

/-- `time.localtime(t).tm_wday`: local weekday index, Monday = 0
(the epoch day, 1970-01-01, was a Thursday, index 3). -/
def tm_wday (tz : Int) (t : Int) : Int :=
  ((t + tz) / 86400 + 3) % 7

/-- One iteration of the `quiet_time` evaluation loop: does timestamp `t`
match spec `x`?  The final branch is the `raise StandardError("Hell has
frozen over")` of the source. -/
def qt_step (tz : Int) (x : QtSpec) (t : Int) : Except String Bool :=
  if x.iter = 0 then
    .ok (decide (x.base + x.lo ≤ t ∧ t ≤ x.base + x.hi))
  else if x.iter = 86400 then
    let db := daybase tz t
    let low := db + x.lo
    let high := db + x.hi
    let dz := db + 86400
    if low < high then .ok (decide (low ≤ t ∧ t ≤ high))
    else if high < low then .ok (decide ((db ≤ t ∧ t ≤ high) ∨ (low ≤ t ∧ t ≤ dz)))
    else .ok (decide (t = low))
  else if x.iter = 604800 then
    .ok (decide (tm_wday tz t = x.base))
  else .error "Hell has frozen over"

/-- The `for x in self._qt_list` loop of `quiet_time`, threading the
accumulated `rval` and propagating the unreachable-branch exception. -/
def quiet_eval (tz : Int) : List QtSpec → Int → Bool → Except String Bool
  | [], _, rval => .ok rval
  | x :: xs, t, rval =>
    match qt_step tz x t with
    | .ok b => quiet_eval tz xs t (rval || b)
    | .error e => .error e

/-- Evaluation of a window list starting from `rval = False`. -/
def quiet_evalL (tz : Int) (l : List QtSpec) (t : Int) : Except String Bool :=
  quiet_eval tz l t false

/-- The configuration state visible to `quiet_time`: the current
`crawler.quiet_time` option text (if the option exists) and the lazily
attached `_qt_list` attribute (if it exists). -/
structure CfgState where
  quiet_opt : Option (List Char)
  qt_cache : Option (List QtSpec)
deriving DecidableEq

/-- The build loop of `quiet_time`: tokens are parsed one at a time and
appended to `self._qt_list`; a parse failure stops the loop with the
tokens appended so far and the raised error. -/
def buildLoop (tz : Int) : List QtSpec → List (List Char) → List QtSpec × Option String
  | acc, [] => (acc, none)
  | acc, tk :: ts =>
    match qt_parse tz tk with
    | .ok x => buildLoop tz (acc ++ [x]) ts
    | .error e => (acc, some e)

/-- Building a window list from a raw option string: `csv_list` plus the
parse loop, as an all-or-nothing result. -/
def build (tz : Int) (s : List Char) : Except String (List QtSpec) :=
  match buildLoop tz [] (csv_list s) with
  | (acc, none) => .ok acc
  | (_, some e) => .error e

/-- `hx/cfg.py` `quiet_time`: if `_qt_list` exists, evaluate against it;
otherwise create it (from the option text when present, else empty),
parsing tokens one at a time — note that the attribute is assigned before
the parse loop runs, so it exists afterwards even when a parse fails. -/
def quiet_time (tz : Int) (st : CfgState) (t : Int) : CfgState × Except String Bool :=
  match st.qt_cache with
  | some l => (st, quiet_evalL tz l t)
  | none =>
    let toks := match st.quiet_opt with | none => [] | some s => csv_list s
    match buildLoop tz [] toks with
    | (acc, some e) => (⟨st.quiet_opt, some acc⟩, .error e)
    | (acc, none) => (⟨st.quiet_opt, some acc⟩, quiet_evalL tz acc t)

/-- `hx/cfg.py` `read`: re-reads the configuration, replacing the
`crawler.quiet_time` option when the new file provides one.  `read` never
touches the `_qt_list` attribute. -/
def read (st : CfgState) (newOpt : Option (List Char)) : CfgState :=
  match newOpt with
  | some v => ⟨some v, st.qt_cache⟩
  | none => ⟨st.quiet_opt, st.qt_cache⟩

/-- `qt_parse` result for the token `19:00-03:00`. -/
def spec1900 : QtSpec := ⟨"19:00-03:00".toList, 68400, 10800, -1, 86400⟩

/-- `qt_parse` result for the token `19:17-19:17`. -/
def spec1917 : QtSpec := ⟨"19:17-19:17".toList, 69420, 69420, -1, 86400⟩

/-- `qt_parse` result for the token `Wednes`. -/
def wednesSpec : QtSpec := ⟨"Wednes".toList, 0, 86399, 2, 604800⟩

/-- `qt_parse` result for the token `fri`. -/
def friSpec : QtSpec := ⟨"fri".toList, 0, 86399, 4, 604800⟩

/-- `qt_parse` result for the token `12:00-13:00`. -/
def noonSpec : QtSpec := ⟨"12:00-13:00".toList, 43200, 46800, -1, 86400⟩

/-- `qt_parse` result for the token `2014.0401` at local offset `tz`
(epoch day 16161 is 2014-04-01). -/
def dateSpec2014 (tz : Int) : QtSpec :=
  ⟨"2014.0401".toList, 0, 86399, 86400 * 16161 - tz, 0⟩

/-! ## Helper lemmas about the evaluation loop -/

/-- Threading an initial `rval` through the loop just ORs it onto the
result of the loop started from `False`. -/
lemma quiet_eval_map (tz : Int) (l : List QtSpec) (t : Int) :
    ∀ r : Bool, quiet_eval tz l t r = (quiet_evalL tz l t).map (fun b => r || b) := by
  induction l with
  | nil => intro r; simp [quiet_eval, quiet_evalL, Except.map]
  | cons x xs ih =>
    intro r
    unfold quiet_evalL
    simp only [quiet_eval]
    cases h : qt_step tz x t with
    | error e => simp [Except.map]
    | ok b =>
      show quiet_eval tz xs t (r || b) =
        Except.map (fun b => r || b) (quiet_eval tz xs t (false || b))
      rw [ih (r || b), ih (false || b)]
      cases hx : quiet_evalL tz xs t with
      | error e => simp [Except.map]
      | ok c => simp [Except.map, Bool.or_assoc]

/-- The loop over a concatenation runs the first list, then feeds its
accumulated result into the second. -/
lemma quiet_eval_append (tz : Int) (l1 l2 : List QtSpec) (t : Int) :
    ∀ r, quiet_eval tz (l1 ++ l2) t r =
      (match quiet_eval tz l1 t r with
       | .ok b => quiet_eval tz l2 t b
       | .error e => .error e) := by
  induction l1 with
  | nil => intro r; simp [quiet_eval]
  | cons x xs ih =>
    intro r
    simp only [List.cons_append, quiet_eval]
    cases h : qt_step tz x t with
    | error e => simp
    | ok b => simp [ih]

/-- OR semantics of evaluation over an append, when both halves evaluate
without error. -/
lemma quiet_evalL_append_ok (tz : Int) (l1 l2 : List QtSpec) (t : Int)
    (qa qb : Bool) (h1 : quiet_evalL tz l1 t = .ok qa)
    (h2 : quiet_evalL tz l2 t = .ok qb) :
    quiet_evalL tz (l1 ++ l2) t = .ok (qa || qb) := by
  unfold quiet_evalL at h1 ⊢
  rw [quiet_eval_append, h1]
  show quiet_eval tz l2 t qa = Except.ok (qa || qb)
  rw [quiet_eval_map, h2]
  rfl

/-! ## Helper lemmas about `csv_list` -/

lemma mem_dropWhile_of_neg {c : Char} {p : Char → Bool} :
    ∀ {l : List Char}, c ∈ l → p c = false → c ∈ l.dropWhile p := by
  intro l
  induction l with
  | nil => intro h _; cases h
  | cons a l ih =>
    intro hm hp
    rw [List.dropWhile_cons]
    by_cases ha : p a = true
    · simp only [ha, if_true]
      rcases List.mem_cons.mp hm with h | h
      · subst h; rw [hp] at ha; cases ha
      · exact ih h hp
    · simp only [ha, if_false]
      exact hm

lemma mem_pyStrip {c : Char} {cs : List Char} (hm : c ∈ cs)
    (hp : isPySpace c = false) : c ∈ pyStrip cs := by
  unfold pyStrip
  exact List.mem_reverse.mpr
    (mem_dropWhile_of_neg (List.mem_reverse.mpr (mem_dropWhile_of_neg hm hp)) hp)

lemma pyStrip_ne_nil_of_comma {cs : List Char} (h : (',' : Char) ∈ cs) :
    pyStrip cs ≠ [] :=
  List.ne_nil_of_mem (mem_pyStrip h (by decide))

lemma splitComma_no_comma : ∀ {A : List Char}, (',' : Char) ∉ A → splitComma A = [A] := by
  intro A
  induction A with
  | nil => intro _; rfl
  | cons a l ih =>
    intro h
    have ha : ¬(a = ',') := fun hh => h (by rw [hh]; exact List.mem_cons_self _ _)
    simp only [splitComma, if_neg ha]
    rw [ih (fun hm => h (List.mem_cons_of_mem a hm))]

lemma splitComma_append {A B : List Char} (h : (',' : Char) ∉ A) :
    splitComma (A ++ ',' :: B) = A :: splitComma B := by
  induction A with
  | nil => simp [splitComma]
  | cons a l ih =>
    have ha : ¬(a = ',') := fun hh => h (by rw [hh]; exact List.mem_cons_self _ _)
    simp only [List.cons_append, splitComma, if_neg ha, List.append_eq]
    rw [ih (fun hm => h (List.mem_cons_of_mem a hm))]

lemma csv_single {A : List Char} (h1 : (',' : Char) ∉ A) (h2 : pyStrip A ≠ []) :
    csv_list A = [pyStrip A] := by
  unfold csv_list
  rw [if_neg h2, if_neg h1]

lemma csv_pair {A B : List Char} (h1 : (',' : Char) ∉ A) (h2 : (',' : Char) ∉ B) :
    csv_list (A ++ ',' :: B) = [pyStrip A, pyStrip B] := by
  have hc : (',' : Char) ∈ A ++ ',' :: B :=
    List.mem_append.mpr (Or.inr (List.mem_cons_self _ _))
  unfold csv_list
  rw [if_neg (pyStrip_ne_nil_of_comma hc), if_pos hc, splitComma_append h1,
    splitComma_no_comma h2]
  rfl

/-- A single-token build that succeeded yields exactly the parse of the
stripped token. -/
lemma build_single {tz : Int} {A : List Char} {la : List QtSpec}
    (h1 : (',' : Char) ∉ A) (h2 : pyStrip A ≠ [])
    (hb : build tz A = .ok la) :
    ∃ x, qt_parse tz (pyStrip A) = .ok x ∧ la = [x] := by
  unfold build at hb
  rw [csv_single h1 h2] at hb
  cases hq : qt_parse tz (pyStrip A) with
  | ok x =>
    refine ⟨x, rfl, ?_⟩
    simp only [buildLoop, hq] at hb
    cases hb
    rfl
  | error e =>
    simp only [buildLoop, hq] at hb
    cases hb

/-! ## Shape lemmas for one evaluation step -/

/-- A single-spec window list evaluates exactly as its one step. -/
lemma quiet_evalL_single (tz : Int) (x : QtSpec) (t : Int) :
    quiet_evalL tz [x] t = qt_step tz x t := by
  unfold quiet_evalL quiet_eval
  cases h : qt_step tz x t <;> simp [quiet_eval, h]

lemma qt_step_date {x : QtSpec} (tz t : Int) (h1 : x.iter = 0) :
    qt_step tz x t = .ok (decide (x.base + x.lo ≤ t ∧ t ≤ x.base + x.hi)) := by
  unfold qt_step
  rw [h1]
  norm_num

lemma qt_step_rsu {x : QtSpec} (tz t : Int) (h1 : x.iter = 86400)
    (h2 : x.lo < x.hi) :
    qt_step tz x t = .ok (decide (daybase tz t + x.lo ≤ t ∧
      t ≤ daybase tz t + x.hi)) := by
  unfold qt_step
  rw [h1]
  have hA : daybase tz t + x.lo < daybase tz t + x.hi := by omega
  norm_num [hA]

lemma qt_step_usd {x : QtSpec} (tz t : Int) (h1 : x.iter = 86400)
    (h2 : x.hi < x.lo) :
    qt_step tz x t = .ok (decide ((daybase tz t ≤ t ∧ t ≤ daybase tz t + x.hi) ∨
      (daybase tz t + x.lo ≤ t ∧ t ≤ daybase tz t + 86400))) := by
  unfold qt_step
  rw [h1]
  have hA : ¬(daybase tz t + x.lo < daybase tz t + x.hi) := by omega
  have hB : daybase tz t + x.hi < daybase tz t + x.lo := by omega
  norm_num [hA, hB]

lemma qt_step_deg {x : QtSpec} (tz t : Int) (h1 : x.iter = 86400)
    (h2 : x.lo = x.hi) :
    qt_step tz x t = .ok (decide (t = daybase tz t + x.lo)) := by
  unfold qt_step
  rw [h1]
  have hA : ¬(daybase tz t + x.lo < daybase tz t + x.hi) := by omega
  have hB : ¬(daybase tz t + x.hi < daybase tz t + x.lo) := by omega
  norm_num [hA, hB]

lemma qt_step_week {x : QtSpec} (tz t : Int) (h1 : x.iter = 604800) :
    qt_step tz x t = .ok (decide (tm_wday tz t = x.base)) := by
  unfold qt_step
  rw [h1]
  norm_num

/-- Evaluation of the `19:00-03:00` window at an offset into day `d`. -/
lemma spec1900_eval (d off : Int) (h0 : 0 ≤ off) (h1 : off < 86400) :
    quiet_evalL 0 [spec1900] (86400 * d + off) =
      .ok (decide (off ≤ 10800 ∨ 68400 ≤ off)) := by
  rw [quiet_evalL_single, qt_step_usd 0 (86400 * d + off) rfl (by decide)]
  have hdb : daybase 0 (86400 * d + off) = 86400 * d := by
    unfold daybase; omega
  rw [hdb]
  congr 1
  rw [decide_eq_decide]
  simp only [spec1900]
  omega

/-- Evaluation of the degenerate `19:17-19:17` window at an offset into
day `d`. -/
lemma spec1917_eval (d off : Int) (h0 : 0 ≤ off) (h1 : off < 86400) :
    quiet_evalL 0 [spec1917] (86400 * d + off) = .ok (decide (off = 69420)) := by
  rw [quiet_evalL_single, qt_step_deg 0 (86400 * d + off) rfl rfl]
  have hdb : daybase 0 (86400 * d + off) = 86400 * d := by
    unfold daybase; omega
  rw [hdb]
  congr 1
  rw [decide_eq_decide]
  simp only [spec1917]
  omega

/-! ## Claim theorems -/

/-- C1: for independently-valid tokens `A` and `B`, the window set built
from `A ++ "," ++ B` is the concatenation of the two individual sets, its
evaluation at any timestamp is the OR of the individual evaluations, and
the empty window set evaluates to false at every timestamp. -/
theorem c1_or_across_specs (tz : Int) (A B : List Char) (la lb : List QtSpec)
    (t : Int) (qa qb : Bool)
    (hA : (',' : Char) ∉ A) (hB : (',' : Char) ∉ B)
    (hA2 : pyStrip A ≠ []) (hB2 : pyStrip B ≠ [])
    (hbA : build tz A = .ok la) (hbB : build tz B = .ok lb)
    (heA : quiet_evalL tz la t = .ok qa) (heB : quiet_evalL tz lb t = .ok qb) :
    build tz (A ++ ',' :: B) = .ok (la ++ lb) ∧
    quiet_evalL tz (la ++ lb) t = .ok (qa || qb) ∧
    quiet_evalL tz [] t = .ok false := by
  obtain ⟨xa, hqa, hla⟩ := build_single hA hA2 hbA
  obtain ⟨xb, hqb, hlb⟩ := build_single hB hB2 hbB
  subst hla
  subst hlb
  refine ⟨?_, quiet_evalL_append_ok tz _ _ t qa qb heA heB, rfl⟩
  unfold build
  rw [csv_pair hA hB]
  simp [buildLoop, hqa, hqb]

/-- Concrete instance of C1 at `A = "fri"`, `B = "12:00-13:00"`, `t = 0`. -/
theorem c1_or_across_specs_witness :
    build 0 ("fri".toList ++ ',' :: "12:00-13:00".toList) =
      .ok ([friSpec] ++ [noonSpec]) ∧
    quiet_evalL 0 ([friSpec] ++ [noonSpec]) 0 = .ok (false || false) ∧
    quiet_evalL 0 [] 0 = .ok false :=
  c1_or_across_specs 0 ("fri".toList) ("12:00-13:00".toList) [friSpec]
    [noonSpec] 0 false false (by decide) (by decide) (by decide) (by decide)
    (by decide) (by decide) (by decide) (by decide)

/-- C2: a daily range with `hi < lo` wraps past midnight: a timestamp is
quiet iff it lies in `[daybase, daybase+hi]` or in `[daybase+lo,
daybase+86400]`, all ends inclusive; concretely, under `19:00-03:00`
the instants 23:59:59, 00:00:00, 00:00:01 and the boundaries 19:00:00
and 03:00:00 of any day are quiet, while 12:00:00 is not. -/
theorem c2_daily_wrap (tz : Int) (x : QtSpec) (t : Int)
    (h1 : x.iter = 86400) (h2 : x.hi < x.lo) :
    (quiet_evalL tz [x] t = .ok true ↔
      (daybase tz t ≤ t ∧ t ≤ daybase tz t + x.hi) ∨
      (daybase tz t + x.lo ≤ t ∧ t ≤ daybase tz t + 86400)) ∧
    qt_parse 0 ("19:00-03:00".toList) = .ok spec1900 ∧
    (∀ d : Int,
      quiet_evalL 0 [spec1900] (86400 * d + 86399) = .ok true ∧
      quiet_evalL 0 [spec1900] (86400 * d) = .ok true ∧
      quiet_evalL 0 [spec1900] (86400 * d + 1) = .ok true ∧
      quiet_evalL 0 [spec1900] (86400 * d + 68400) = .ok true ∧
      quiet_evalL 0 [spec1900] (86400 * d + 10800) = .ok true ∧
      quiet_evalL 0 [spec1900] (86400 * d + 43200) = .ok false) := by
  refine ⟨?_, by decide, ?_⟩
  · rw [quiet_evalL_single, qt_step_usd tz t h1 h2]
    simp only [Except.ok.injEq, decide_eq_true_eq]
  intro d
  have e0 : quiet_evalL 0 [spec1900] (86400 * d + 0) =
      .ok (decide ((0 : Int) ≤ 10800 ∨ 68400 ≤ (0 : Int))) :=
    spec1900_eval d 0 (by omega) (by omega)
  refine ⟨?_, ?_, ?_, ?_, ?_, ?_⟩
  · rw [spec1900_eval d 86399 (by omega) (by omega)]; decide
  · rw [show (86400 : Int) * d = 86400 * d + 0 by omega, e0]; decide
  · rw [spec1900_eval d 1 (by omega) (by omega)]; decide
  · rw [spec1900_eval d 68400 (by omega) (by omega)]; decide
  · rw [spec1900_eval d 10800 (by omega) (by omega)]; decide
  · rw [spec1900_eval d 43200 (by omega) (by omega)]; decide

/-- Concrete instance of C2 at `t = 43200` of day 0 (not quiet). -/
theorem c2_daily_wrap_witness :
    quiet_evalL 0 [spec1900] (86400 * 0 + 43200) = .ok false ∧
    quiet_evalL 0 [spec1900] (86400 * 0 + 86399) = .ok true :=
  ⟨((c2_daily_wrap 0 spec1900 0 rfl (by decide)).2.2 0).2.2.2.2.2,
   ((c2_daily_wrap 0 spec1900 0 rfl (by decide)).2.2 0).1⟩

/-- C6: a daily range with `lo = hi` matches exactly the single instant
`daybase + lo` of each day; concretely, under `19:17-19:17` only
19:17:00 of each day is quiet, and the seconds on either side are not. -/
theorem c6_degenerate_range (tz : Int) (x : QtSpec) (t : Int)
    (h1 : x.iter = 86400) (h2 : x.lo = x.hi) :
    (quiet_evalL tz [x] t = .ok true ↔ t = daybase tz t + x.lo) ∧
    qt_parse 0 ("19:17-19:17".toList) = .ok spec1917 ∧
    (∀ d : Int,
      quiet_evalL 0 [spec1917] (86400 * d + 69420) = .ok true ∧
      quiet_evalL 0 [spec1917] (86400 * d + 69419) = .ok false ∧
      quiet_evalL 0 [spec1917] (86400 * d + 69421) = .ok false) := by
  refine ⟨?_, by decide, ?_⟩
  · rw [quiet_evalL_single, qt_step_deg tz t h1 h2]
    simp only [Except.ok.injEq, decide_eq_true_eq]
  intro d
  refine ⟨?_, ?_, ?_⟩
  · rw [spec1917_eval d 69420 (by omega) (by omega)]; decide
  · rw [spec1917_eval d 69419 (by omega) (by omega)]; decide
  · rw [spec1917_eval d 69421 (by omega) (by omega)]; decide

/-- Concrete instance of C6 on day 3. -/
theorem c6_degenerate_range_witness :
    quiet_evalL 0 [spec1917] (86400 * 3 + 69420) = .ok true ∧
    quiet_evalL 0 [spec1917] (86400 * 3 + 69421) = .ok false :=
  ⟨((c6_degenerate_range 0 spec1917 0 rfl rfl).2.2 3).1,
   ((c6_degenerate_range 0 spec1917 0 rfl rfl).2.2 3).2.2⟩

/-! ## Shape lemmas for the parser -/

/-- `qt_parse` on a token passing the weekday membership test with a
unique canonical-name match. -/
lemma qt_parse_week {s w : List Char} (tz : Int)
    (h1 : hasInfix (' ' :: s.map Char.toLower) dowString = true)
    (h2 : wdayNames.filter (fun n => hasInfix (s.map Char.toLower) n) = [w]) :
    qt_parse tz s = .ok ⟨s, 0, 86399, (wdayNames.indexOf w : Int), 604800⟩ := by
  unfold qt_parse
  simp [h1, h2]

/-- `qt_parse` on a token passing the weekday membership test whose
canonical-name match is not unique: the destructuring assignment raises. -/
lemma qt_parse_week_fail {s : List Char} (tz : Int)
    (h1 : hasInfix (' ' :: s.map Char.toLower) dowString = true)
    (h2 : (wdayNames.filter (fun n => hasInfix (s.map Char.toLower) n)).length ≠ 1) :
    qt_parse tz s = .error "ValueError: weekday match does not unpack" := by
  unfold qt_parse
  simp only [h1, if_true]
  cases hm : wdayNames.filter (fun n => hasInfix (s.map Char.toLower) n) with
  | nil => rfl
  | cons a l =>
    cases l with
    | nil => exact absurd (by rw [hm]; rfl) h2
    | cons b l2 => rfl

/-- `qt_parse` on a token that fails the weekday test and parses as a
`%Y.%m%d` date. -/
lemma qt_parse_date {s : List Char} {y m d : Nat} (tz : Int)
    (h1 : hasInfix (' ' :: s.map Char.toLower) dowString = false)
    (h2 : parseYMD s = some (y, m, d)) :
    qt_parse tz s = .ok ⟨s, 0, 86399, 86400 * daysSinceEpoch y m d - tz, 0⟩ := by
  unfold qt_parse
  simp [h1, h2]

/-- `qt_parse` on a token that fails the weekday and date tests and whose
`H+:M+` scan finds exactly two groups. -/
lemma qt_parse_range {s ga gb gc gd : List Char} (tz : Int)
    (h1 : hasInfix (' ' :: s.map Char.toLower) dowString = false)
    (h2 : parseYMD s = none)
    (h3 : findHM s = [(ga, gb), (gc, gd)]) :
    qt_parse tz s = .ok ⟨s, 60 * (60 * (digVal ga : Int) + digVal gb),
      60 * (60 * (digVal gc : Int) + digVal gd), -1, 86400⟩ := by
  unfold qt_parse
  simp [h1, h2, h3]

/-- Every successful parse yields one of the three recurrence periods. -/
lemma qt_parse_iter_cases {tz : Int} {tok : List Char} {x : QtSpec}
    (h : qt_parse tz tok = .ok x) :
    x.iter = 0 ∨ x.iter = 86400 ∨ x.iter = 604800 := by
  unfold qt_parse at h
  cases hgb : hasInfix (' ' :: tok.map Char.toLower) dowString
  · simp only [hgb, Bool.false_eq_true, if_false] at h
    cases hp : parseYMD tok with
    | some v =>
      obtain ⟨y, m, d⟩ := v
      simp only [hp] at h
      injection h with h2
      rw [← h2]
      left; rfl
    | none =>
      simp only [hp] at h
      cases hf : findHM tok with
      | nil => simp only [hf] at h; exact Except.noConfusion h
      | cons p l =>
        obtain ⟨ga, gb⟩ := p
        cases l with
        | nil => simp only [hf] at h; exact Except.noConfusion h
        | cons q l2 =>
          obtain ⟨gc, gd⟩ := q
          cases l2 with
          | nil =>
            simp only [hf] at h
            injection h with h2
            rw [← h2]
            right; left; rfl
          | cons r l3 => simp only [hf] at h; exact Except.noConfusion h
  · simp only [hgb, if_true] at h
    cases hm : wdayNames.filter (fun n => hasInfix (tok.map Char.toLower) n) with
    | nil => simp only [hm] at h; exact Except.noConfusion h
    | cons a l =>
      cases l with
      | nil =>
        simp only [hm] at h
        injection h with h2
        rw [← h2]
        right; right; rfl
      | cons b l2 => simp only [hm] at h; exact Except.noConfusion h

/-! ## C7, C8, C5 -/

/-- C7: a one-shot date spec matches exactly the inclusive absolute
interval `[base+lo, base+hi]` and nothing else; concretely, under
`2014.0401`, local 2014-04-01 00:00:00 and 23:59:59 are quiet while
2014-03-31 23:59:59 and 2014-04-02 00:00:00 are not, for every local
offset `tz`. -/
theorem c7_one_shot_date (tz : Int) (x : QtSpec) (t : Int) (h1 : x.iter = 0) :
    (quiet_evalL tz [x] t = .ok true ↔
      x.base + x.lo ≤ t ∧ t ≤ x.base + x.hi) ∧
    qt_parse tz ("2014.0401".toList) = .ok (dateSpec2014 tz) ∧
    quiet_evalL tz [dateSpec2014 tz] (86400 * 16161 - tz) = .ok true ∧
    quiet_evalL tz [dateSpec2014 tz] (86400 * 16161 - tz + 86399) = .ok true ∧
    quiet_evalL tz [dateSpec2014 tz] (86400 * 16161 - tz - 1) = .ok false ∧
    quiet_evalL tz [dateSpec2014 tz] (86400 * 16161 - tz + 86400) = .ok false := by
  have hev : ∀ u : Int, quiet_evalL tz [dateSpec2014 tz] u =
      .ok (decide (86400 * 16161 - tz ≤ u ∧ u ≤ 86400 * 16161 - tz + 86399)) := by
    intro u
    rw [quiet_evalL_single, qt_step_date tz u rfl]
    congr 1
    rw [decide_eq_decide]
    simp only [dateSpec2014]
    omega
  refine ⟨?_, ?_, ?_, ?_, ?_, ?_⟩
  · rw [quiet_evalL_single, qt_step_date tz t h1]
    simp only [Except.ok.injEq, decide_eq_true_eq]
  · have hp : parseYMD ("2014.0401".toList) = some (2014, 4, 1) := by decide
    have hg : hasInfix (' ' :: ("2014.0401".toList).map Char.toLower) dowString
        = false := by decide
    have := qt_parse_date tz hg hp
    rw [this]
    have hd : daysSinceEpoch 2014 4 1 = 16161 := by decide
    rw [hd]
    rfl
  · rw [hev]
    congr 1
    rw [decide_eq_true_iff]
    omega
  · rw [hev]
    congr 1
    rw [decide_eq_true_iff]
    omega
  · rw [hev]
    have : ¬(86400 * 16161 - tz ≤ 86400 * 16161 - tz - 1 ∧
        86400 * 16161 - tz - 1 ≤ 86400 * 16161 - tz + 86399) := by omega
    simp [this]
  · rw [hev]
    have : ¬(86400 * 16161 - tz ≤ 86400 * 16161 - tz + 86400 ∧
        86400 * 16161 - tz + 86400 ≤ 86400 * 16161 - tz + 86399) := by omega
    simp [this]

/-- Concrete instance of C7 at `tz = 0`. -/
theorem c7_one_shot_date_witness :
    qt_parse 0 ("2014.0401".toList) = .ok (dateSpec2014 0) ∧
    quiet_evalL 0 [dateSpec2014 0] (86400 * 16161 - 0) = .ok true ∧
    quiet_evalL 0 [dateSpec2014 0] (86400 * 16161 - 0 + 86400) = .ok false :=
  ⟨(c7_one_shot_date 0 (dateSpec2014 0) 0 rfl).2.1,
   (c7_one_shot_date 0 (dateSpec2014 0) 0 rfl).2.2.1,
   (c7_one_shot_date 0 (dateSpec2014 0) 0 rfl).2.2.2.2.2⟩

/-- C8: a token contained in exactly one canonical weekday name parses to
a weekly spec whose `base` is that weekday's index (Monday = 0), and a
weekly spec matches exactly the timestamps whose local weekday index
equals `base`; concretely `Wednes` gives index 2, every instant of a
Wednesday is quiet, and adjacent Tuesday 23:59:59 / Thursday 00:00:00
are not. -/
theorem c8_weekly_day (tz : Int) (tok w : List Char) (x : QtSpec) (t : Int)
    (hg : hasInfix (' ' :: tok.map Char.toLower) dowString = true)
    (hu : wdayNames.filter (fun n => hasInfix (tok.map Char.toLower) n) = [w]) :
    qt_parse tz tok = .ok ⟨tok, 0, 86399, (wdayNames.indexOf w : Int), 604800⟩ ∧
    (x.iter = 604800 →
      (quiet_evalL tz [x] t = .ok true ↔ tm_wday tz t = x.base)) ∧
    qt_parse tz ("Wednes".toList) = .ok wednesSpec ∧
    (∀ k off : Int, 0 ≤ off → off < 86400 →
      quiet_evalL 0 [wednesSpec] (86400 * (6 + 7 * k) + off) = .ok true) ∧
    (∀ k : Int, quiet_evalL 0 [wednesSpec] (86400 * (5 + 7 * k) + 86399) = .ok false) ∧
    (∀ k : Int, quiet_evalL 0 [wednesSpec] (86400 * (7 + 7 * k)) = .ok false) := by
  refine ⟨qt_parse_week tz hg hu, ?_, ?_, ?_, ?_, ?_⟩
  · intro hx
    rw [quiet_evalL_single, qt_step_week tz t hx]
    simp only [Except.ok.injEq, decide_eq_true_eq]
  · have := qt_parse_week tz
      (show hasInfix (' ' :: ("Wednes".toList).map Char.toLower) dowString = true
        by decide)
      (show wdayNames.filter (fun n => hasInfix (("Wednes".toList).map Char.toLower) n)
          = ["wednesday".toList] by decide)
    rw [this]
    have hidx : wdayNames.indexOf ("wednesday".toList) = 2 := by decide
    rw [hidx]
    rfl
  · intro k off ho0 ho1
    rw [quiet_evalL_single, qt_step_week 0 _ rfl]
    have : tm_wday 0 (86400 * (6 + 7 * k) + off) = 2 := by
      unfold tm_wday; omega
    simp [this, wednesSpec]
  · intro k
    rw [quiet_evalL_single, qt_step_week 0 _ rfl]
    have : tm_wday 0 (86400 * (5 + 7 * k) + 86399) = 1 := by
      unfold tm_wday; omega
    simp [this, wednesSpec]
  · intro k
    rw [quiet_evalL_single, qt_step_week 0 _ rfl]
    have : tm_wday 0 (86400 * (7 + 7 * k)) = 3 := by
      unfold tm_wday; omega
    simp [this, wednesSpec]

/-- Concrete instance of C8: `Wednes` parses to index 2 and Wednesday
noon of epoch week 0 is quiet. -/
theorem c8_weekly_day_witness :
    qt_parse 0 ("Wednes".toList) = .ok wednesSpec ∧
    quiet_evalL 0 [wednesSpec] (86400 * (6 + 7 * 0) + 43200) = .ok true :=
  ⟨(c8_weekly_day 0 ("Wednes".toList) ("wednesday".toList) wednesSpec 0
      (by decide) (by decide)).2.2.1,
   (c8_weekly_day 0 ("Wednes".toList) ("wednesday".toList) wednesSpec 0
      (by decide) (by decide)).2.2.2.1 0 43200 (by norm_num) (by norm_num)⟩

/-- C5: a token that passes the weekday membership test but is contained
in zero or in more than one canonical weekday name makes `qt_parse`
raise rather than default to some weekday; concretely the token `s` is
contained in five canonical names and fails. -/
theorem c5_weekday_ambiguous (tz : Int) (tok : List Char)
    (hg : hasInfix (' ' :: tok.map Char.toLower) dowString = true)
    (hn : (wdayNames.filter (fun n => hasInfix (tok.map Char.toLower) n)).length ≠ 1) :
    (∃ e, qt_parse tz tok = .error e) ∧
    qt_parse tz (['s']) = .error "ValueError: weekday match does not unpack" ∧
    (wdayNames.filter (fun n => hasInfix ((['s']).map Char.toLower) n)).length = 5 := by
  refine ⟨⟨_, qt_parse_week_fail tz hg hn⟩, ?_, by decide⟩
  exact qt_parse_week_fail tz (by decide) (by decide)

/-- Concrete instance of C5 at the token `s`. -/
theorem c5_weekday_ambiguous_witness :
    qt_parse 0 (['s']) = .error "ValueError: weekday match does not unpack" ∧
    (∃ e, qt_parse 0 (['s']) = .error e) :=
  ⟨(c5_weekday_ambiguous 0 (['s']) (by decide) (by decide)).2.1,
   (c5_weekday_ambiguous 0 (['s']) (by decide) (by decide)).1⟩

/-! ## C9: the evaluator has no reachable error path -/

/-- A spec with one of the three parser-produced periods never hits the
evaluator's error branch. -/
lemma qt_step_ok_of_iter {x : QtSpec} (tz t : Int)
    (h : x.iter = 0 ∨ x.iter = 86400 ∨ x.iter = 604800) :
    ∃ b, qt_step tz x t = .ok b := by
  rcases h with h0 | h0 | h0
  · exact ⟨_, qt_step_date tz t h0⟩
  · rcases lt_trichotomy x.lo x.hi with hlt | heq | hgt
    · exact ⟨_, qt_step_rsu tz t h0 hlt⟩
    · exact ⟨_, qt_step_deg tz t h0 heq⟩
    · exact ⟨_, qt_step_usd tz t h0 hgt⟩
  · exact ⟨_, qt_step_week tz t h0⟩

/-- C9: on a window list all of whose members come from successful
parses, every period is 0, 86400 or 604800 and evaluation never raises,
so the `Hell has frozen over` branch is unreachable. -/
theorem c9_eval_total (tz : Int) (l : List QtSpec) (t : Int)
    (h : ∀ x ∈ l, ∃ tok, qt_parse tz tok = .ok x) :
    (∀ x ∈ l, x.iter = 0 ∨ x.iter = 86400 ∨ x.iter = 604800) ∧
    (∃ b, quiet_evalL tz l t = .ok b) := by
  have hi : ∀ x ∈ l, x.iter = 0 ∨ x.iter = 86400 ∨ x.iter = 604800 :=
    fun x hx => (h x hx).elim fun tok htok => qt_parse_iter_cases htok
  refine ⟨hi, ?_⟩
  suffices hs : ∀ r : Bool, ∃ b, quiet_eval tz l t r = .ok b from hs false
  clear h
  induction l with
  | nil => intro r; exact ⟨r, rfl⟩
  | cons x xs ih =>
    intro r
    obtain ⟨b, hb⟩ := qt_step_ok_of_iter tz t (hi x (List.mem_cons_self _ _))
    obtain ⟨c, hc⟩ := ih (fun y hy => hi y (List.mem_cons_of_mem _ hy)) (r || b)
    exact ⟨c, by simp only [quiet_eval, hb]; exact hc⟩

/-- Concrete instance of C9 on the singleton list parsed from `fri`. -/
theorem c9_eval_total_witness :
    (∀ x ∈ [friSpec], x.iter = 0 ∨ x.iter = 86400 ∨ x.iter = 604800) ∧
    (∃ b, quiet_evalL 0 [friSpec] 12345 = .ok b) :=
  c9_eval_total 0 [friSpec] 12345
    (fun x hx => ⟨"fri".toList, by
      have hx2 : x = friSpec := by
        cases hx with
        | head => rfl
        | tail _ hx3 => cases hx3
      rw [hx2]
      decide⟩)

/-! ## C10: the clock-range branch applies no range validation -/

lemma findHMA_nil : ∀ n : Nat, findHMA n [] = [] := by
  intro n
  cases n <;> rfl

/-- If the scanner finds a match, the token contains a colon. -/
lemma findHMA_colon : ∀ (fuel : Nat) (cs : List Char),
    findHMA fuel cs ≠ [] → (':' : Char) ∈ cs := by
  intro fuel
  induction fuel with
  | zero => intro cs h; exact absurd rfl h
  | succ n ih =>
    intro cs h
    cases cs with
    | nil => exact absurd rfl h
    | cons c cs' =>
      by_cases hd : c.isDigit = true
      · simp only [findHMA, hd, if_true] at h
        cases hr : (c :: cs').dropWhile Char.isDigit with
        | nil =>
          simp only [hr, findHMA_nil] at h
          exact absurd rfl h
        | cons c2 r2 =>
          simp only [hr] at h
          by_cases hc2 : c2 = ':'
          · subst hc2
            have hmem : (':' : Char) ∈ (c :: cs').dropWhile Char.isDigit := by
              rw [hr]; exact List.mem_cons_self _ _
            exact (List.dropWhile_sublist _).mem hmem
          · rw [if_neg hc2] at h
            have hmem : (':' : Char) ∈ (c :: cs').dropWhile Char.isDigit := by
              rw [hr]; exact ih _ h
            exact (List.dropWhile_sublist _).mem hmem
      · simp only [findHMA, hd, Bool.false_eq_true, if_false] at h
        exact List.mem_cons_of_mem c (ih _ h)

lemma findHM_colon {cs : List Char} (h : findHM cs ≠ []) : (':' : Char) ∈ cs :=
  findHMA_colon cs.length cs h

/-- Substring containment implies element containment. -/
lemma hasInfix_subset : ∀ {hay n : List Char}, hasInfix n hay = true →
    ∀ c ∈ n, c ∈ hay := by
  intro hay
  induction hay with
  | nil =>
    intro n hi c hc
    simp only [hasInfix, List.isEmpty_iff] at hi
    subst hi
    cases hc
  | cons a t ih =>
    intro n hi c hc
    simp only [hasInfix, Bool.or_eq_true] at hi
    rcases hi with hp | hinf
    · exact (List.isPrefixOf_iff_prefix.mp hp).subset hc
    · exact List.mem_cons_of_mem a (ih hinf c hc)

/-- A token containing a colon cannot pass the weekday membership test:
the searched weekday string has no colon. -/
lemma guard_false_of_colon {tok : List Char} (hc : (':' : Char) ∈ tok) :
    hasInfix (' ' :: tok.map Char.toLower) dowString = false := by
  cases hgb : hasInfix (' ' :: tok.map Char.toLower) dowString
  · rfl
  · exfalso
    have h1 : (':' : Char) ∈ tok.map Char.toLower := by
      have h0 := List.mem_map_of_mem Char.toLower hc
      have hl : Char.toLower ':' = ':' := by decide
      rw [hl] at h0
      exact h0
    have h2 := hasInfix_subset hgb ':' (List.mem_cons_of_mem _ h1)
    exact absurd h2 (by decide)

lemma c1cand_digit {a : Char} {m : Nat} (h : c1cand a = some m) :
    a.isDigit = true := by
  unfold c1cand at h
  split at h
  · next hcond =>
    simp only [Bool.and_eq_true] at hcond
    exact hcond.1
  · exact Option.noConfusion h

lemma m2cand_digits {a b : Char} {m : Nat} (h : m2cand a b = some m) :
    a.isDigit = true ∧ b.isDigit = true := by
  unfold m2cand at h
  split at h
  · next hcond =>
    simp only [Bool.and_eq_true, Bool.or_eq_true, decide_eq_true_eq] at hcond
    obtain ⟨ha, hb⟩ := hcond
    subst ha
    rcases hb with (hb | hb) | hb <;> subst hb <;> exact ⟨by decide, by decide⟩
  · split at h
    · next hcond =>
      simp only [Bool.and_eq_true, decide_eq_true_eq] at hcond
      obtain ⟨⟨ha, hb⟩, -⟩ := hcond
      subst ha
      exact ⟨by decide, hb⟩
    · exact Option.noConfusion h

lemma d2cand_digits {a b : Char} {m : Nat} (h : d2cand a b = some m) :
    a.isDigit = true ∧ b.isDigit = true := by
  unfold d2cand at h
  split at h
  · next hcond =>
    simp only [Bool.and_eq_true, Bool.or_eq_true, decide_eq_true_eq] at hcond
    obtain ⟨ha, hb⟩ := hcond
    subst ha
    rcases hb with hb | hb <;> subst hb <;> exact ⟨by decide, by decide⟩
  · split at h
    · next hcond =>
      simp only [Bool.and_eq_true, Bool.or_eq_true, decide_eq_true_eq] at hcond
      obtain ⟨ha, hb⟩ := hcond
      rcases ha with ha | ha <;> subst ha <;> exact ⟨by decide, hb⟩
    · split at h
      · next hcond =>
        simp only [Bool.and_eq_true, decide_eq_true_eq] at hcond
        obtain ⟨⟨ha, hb⟩, -⟩ := hcond
        subst ha
        exact ⟨by decide, hb⟩
      · exact Option.noConfusion h

/-- A successful `%m%d` parse only ever consumed digit characters. -/
lemma parseMD_digits : ∀ {rest : List Char} {md : Nat × Nat},
    parseMD rest = some md → ∀ ch ∈ rest, ch.isDigit = true := by
  intro rest md h ch hc
  cases rest with
  | nil => exact Option.noConfusion h
  | cons a r1 =>
    cases r1 with
    | nil => exact Option.noConfusion h
    | cons b r2 =>
      cases r2 with
      | nil =>
        have main : a.isDigit = true ∧ b.isDigit = true := by
          rcases h1 : c1cand a with - | m1 <;> simp only [parseMD, h1] at h
          · exact Option.noConfusion h
          · rcases h2 : c1cand b with - | d1 <;> simp only [h2] at h
            · exact Option.noConfusion h
            · exact ⟨c1cand_digit h1, c1cand_digit h2⟩
        rcases List.mem_cons.mp hc with rfl | hc2
        · exact main.1
        rcases List.mem_cons.mp hc2 with rfl | hc3
        · exact main.2
        cases hc3
      | cons c0 r3 =>
        cases r3 with
        | nil =>
          have inner : (match c1cand a, d2cand b c0 with
              | some m, some d => some (m, d)
              | _, _ => none) = some md →
              a.isDigit = true ∧ b.isDigit = true ∧ c0.isDigit = true := by
            intro hin
            rcases h3 : c1cand a with - | m2 <;> simp only [h3] at hin
            · exact Option.noConfusion hin
            · rcases h4 : d2cand b c0 with - | d2 <;> simp only [h4] at hin
              · exact Option.noConfusion hin
              · exact ⟨c1cand_digit h3, (d2cand_digits h4).1, (d2cand_digits h4).2⟩
          have main : a.isDigit = true ∧ b.isDigit = true ∧ c0.isDigit = true := by
            rcases h1 : m2cand a b with - | m1
            · simp only [parseMD, h1] at h
              exact inner h
            · rcases h2 : c1cand c0 with - | d1
              · simp only [parseMD, h1, h2] at h
                exact inner h
              · exact ⟨(m2cand_digits h1).1, (m2cand_digits h1).2, c1cand_digit h2⟩
          rcases List.mem_cons.mp hc with rfl | hc2
          · exact main.1
          rcases List.mem_cons.mp hc2 with rfl | hc3
          · exact main.2.1
          rcases List.mem_cons.mp hc3 with rfl | hc4
          · exact main.2.2
          cases hc4
        | cons d0 r4 =>
          cases r4 with
          | nil =>
            have main : (a.isDigit = true ∧ b.isDigit = true) ∧
                c0.isDigit = true ∧ d0.isDigit = true := by
              rcases h1 : m2cand a b with - | m1 <;> simp only [parseMD, h1] at h
              · exact Option.noConfusion h
              · rcases h2 : d2cand c0 d0 with - | d1 <;> simp only [h2] at h
                · exact Option.noConfusion h
                · exact ⟨m2cand_digits h1, (d2cand_digits h2).1, (d2cand_digits h2).2⟩
            rcases List.mem_cons.mp hc with rfl | hc2
            · exact main.1.1
            rcases List.mem_cons.mp hc2 with rfl | hc3
            · exact main.1.2
            rcases List.mem_cons.mp hc3 with rfl | hc4
            · exact main.2.1
            rcases List.mem_cons.mp hc4 with rfl | hc5
            · exact main.2.2
            cases hc5
          | cons e0 r5 => exact Option.noConfusion h

/-- A successful `%Y.%m%d` parse only ever consumed digits and the dot. -/
lemma parseYMD_chars : ∀ {tok : List Char} {v : Nat × Nat × Nat},
    parseYMD tok = some v → ∀ ch ∈ tok, ch.isDigit = true ∨ ch = '.' := by
  intro tok v h ch hc
  cases tok with
  | nil => exact Option.noConfusion h
  | cons a r1 => cases r1 with
    | nil => exact Option.noConfusion h
    | cons b r2 => cases r2 with
      | nil => exact Option.noConfusion h
      | cons c0 r3 => cases r3 with
        | nil => exact Option.noConfusion h
        | cons d0 r4 => cases r4 with
          | nil => exact Option.noConfusion h
          | cons dot rest =>
            simp only [parseYMD] at h
            split at h
            · next hcond =>
              simp only [Bool.and_eq_true, decide_eq_true_eq] at hcond
              obtain ⟨⟨⟨⟨ha, hb⟩, hc0⟩, hd0⟩, hdot⟩ := hcond
              cases hp : parseMD rest with
              | none => rw [hp] at h; exact Option.noConfusion h
              | some mdy =>
                have hdig := parseMD_digits hp
                rcases List.mem_cons.mp hc with rfl | h1
                · exact Or.inl ha
                rcases List.mem_cons.mp h1 with rfl | h2
                · exact Or.inl hb
                rcases List.mem_cons.mp h2 with rfl | h3
                · exact Or.inl hc0
                rcases List.mem_cons.mp h3 with rfl | h4
                · exact Or.inl hd0
                rcases List.mem_cons.mp h4 with rfl | h5
                · exact Or.inr hdot
                · exact Or.inl (hdig ch h5)
            · exact Option.noConfusion h

/-- A token containing a colon cannot parse as a date. -/
lemma parseYMD_none_of_colon {tok : List Char} (hc : (':' : Char) ∈ tok) :
    parseYMD tok = none := by
  cases hp : parseYMD tok with
  | none => rfl
  | some v =>
    exfalso
    rcases parseYMD_chars hp ':' hc with h | h
    · exact absurd h (by decide)
    · exact absurd h (by decide)

/-- C10: a token in which the scanner finds exactly two `H+:M+` groups
parses as a daily range with bounds `3600*hours + 60*minutes`, with no
validation of the clock values; concretely `99:00-11:00` parses with
`lo = 356400`, which exceeds 86400. -/
theorem c10_range_no_validation (tz : Int) (tok ga gb gc gd : List Char)
    (hf : findHM tok = [(ga, gb), (gc, gd)]) :
    qt_parse tz tok = .ok ⟨tok, 60 * (60 * (digVal ga : Int) + digVal gb),
      60 * (60 * (digVal gc : Int) + digVal gd), -1, 86400⟩ ∧
    qt_parse 0 ("99:00-11:00".toList) =
      .ok ⟨"99:00-11:00".toList, 356400, 39600, -1, 86400⟩ ∧
    (86400 : Int) < 356400 := by
  have hcolon : (':' : Char) ∈ tok :=
    findHM_colon (by rw [hf]; exact List.cons_ne_nil _ _)
  exact ⟨qt_parse_range tz (guard_false_of_colon hcolon)
      (parseYMD_none_of_colon hcolon) hf,
    by decide, by norm_num⟩

/-- Concrete instance of C10 at the token `99:00-11:00`. -/
theorem c10_range_no_validation_witness :
    qt_parse 0 ("99:00-11:00".toList) =
      .ok ⟨"99:00-11:00".toList, 60 * (60 * (digVal ("99".toList) : Int)
        + digVal ("00".toList)), 60 * (60 * (digVal ("11".toList) : Int)
        + digVal ("00".toList)), -1, 86400⟩ :=
  (c10_range_no_validation 0 ("99:00-11:00".toList) ("99".toList) ("00".toList)
    ("11".toList) ("00".toList) (by decide)).1

/-! ## C3, C4: caching behaviour of `quiet_time` and `read` -/

/-- The build loop's accumulator distributes over the result. -/
lemma buildLoop_acc (tz : Int) : ∀ (ts : List (List Char)) (acc : List QtSpec),
    buildLoop tz acc ts =
      (acc ++ (buildLoop tz [] ts).1, (buildLoop tz [] ts).2) := by
  intro ts
  induction ts with
  | nil => intro acc; simp [buildLoop]
  | cons tk ts ih =>
    intro acc
    simp only [buildLoop]
    cases hq : qt_parse tz tk with
    | ok x =>
      simp only [hq]
      rw [ih (acc ++ [x]), ih ([] ++ [x])]
      simp
    | error e => simp [hq]

/-- A failing token after a clean prefix stops the build loop with
exactly the parsed prefix accumulated and the raised error. -/
lemma buildLoop_prefix_err (tz : Int) {ts1 : List (List Char)}
    {l1 : List QtSpec} (h1 : buildLoop tz [] ts1 = (l1, none))
    (bad : List Char) (ts2 : List (List Char)) {e : String}
    (he : qt_parse tz bad = .error e) :
    buildLoop tz [] (ts1 ++ bad :: ts2) = (l1, some e) := by
  induction ts1 generalizing l1 with
  | nil =>
    simp only [buildLoop] at h1
    cases h1
    simp [buildLoop, he]
  | cons tk ts ih =>
    simp only [List.cons_append, List.append_eq, buildLoop] at h1 ⊢
    cases hq : qt_parse tz tk with
    | error e2 =>
      simp only [hq] at h1
      cases h1
    | ok x =>
      simp only [hq] at h1 ⊢
      rw [buildLoop_acc tz ts ([] ++ [x])] at h1
      rw [Prod.mk.injEq] at h1
      obtain ⟨h1a, h1b⟩ := h1
      have hB : buildLoop tz [] ts = ((buildLoop tz [] ts).1, none) := by
        rw [← h1b]
      rw [buildLoop_acc tz (ts ++ bad :: ts2) ([] ++ [x]), ih hB]
      simp
      simpa using h1a

/-- C3 counterexample: with option text `fri,bogus`, the first evaluation
call raises from the failed build, but it leaves the parsed prefix
`[fri]` cached, and the next evaluation call silently returns true on a
Friday instant instead of behaving as if the build had never started. -/
theorem c3_no_partial_counterexample :
    (quiet_time 0 ⟨some ("fri,bogus".toList), none⟩ 86400).2 =
      .error "qt_parse fails on 'bogus'" ∧
    ((quiet_time 0 ⟨some ("fri,bogus".toList), none⟩ 86400).1).qt_cache =
      some [friSpec] ∧
    (quiet_time 0 (quiet_time 0 ⟨some ("fri,bogus".toList), none⟩ 86400).1
      86400).2 = .ok true := by
  decide

/-- C3 amended: when a token fails to parse, the error is raised from the
evaluation call that triggered the build, but the tokens parsed before
the failing one remain cached in `_qt_list`, and every later evaluation
call uses that partial prefix without re-raising. -/
theorem c3_partial_prefix_cached (tz : Int) (s : List Char)
    (ts1 : List (List Char)) (bad : List Char) (ts2 : List (List Char))
    (l1 : List QtSpec) (e : String) (t t2 : Int)
    (h2 : csv_list s = ts1 ++ bad :: ts2)
    (h3 : buildLoop tz [] ts1 = (l1, none))
    (h4 : qt_parse tz bad = .error e) :
    quiet_time tz ⟨some s, none⟩ t = (⟨some s, some l1⟩, .error e) ∧
    quiet_time tz ⟨some s, some l1⟩ t2 =
      (⟨some s, some l1⟩, quiet_evalL tz l1 t2) := by
  have hb := buildLoop_prefix_err tz h3 bad ts2 h4
  constructor
  · simp only [quiet_time, h2, hb]
  · rfl

/-- Concrete instance of C3 amended on the option text `fri,bogus`. -/
theorem c3_partial_prefix_cached_witness :
    quiet_time 0 ⟨some ("fri,bogus".toList), none⟩ 86400 =
      (⟨some ("fri,bogus".toList), some [friSpec]⟩,
        .error "qt_parse fails on 'bogus'") ∧
    quiet_time 0 ⟨some ("fri,bogus".toList), some [friSpec]⟩ 86400 =
      (⟨some ("fri,bogus".toList), some [friSpec]⟩,
        quiet_evalL 0 [friSpec] 86400) :=
  c3_partial_prefix_cached 0 ("fri,bogus".toList) ["fri".toList]
    ("bogus".toList) [] [friSpec] "qt_parse fails on 'bogus'" 86400 86400
    (by decide) (by decide) (by decide)

/-- C4 counterexample: build the set under option text `fri`, then reload
with new text `12:00-13:00`; the next evaluation still answers with the
old `fri` window (true at Friday midnight) although a fresh build from
the current text answers false there. -/
theorem c4_reload_counterexample :
    (quiet_time 0 (read (quiet_time 0 ⟨some ("fri".toList), none⟩ 86400).1
        (some ("12:00-13:00".toList))) 86400).2 = .ok true ∧
    (read (quiet_time 0 ⟨some ("fri".toList), none⟩ 86400).1
        (some ("12:00-13:00".toList))).quiet_opt = some ("12:00-13:00".toList) ∧
    (quiet_time 0 ⟨some ("12:00-13:00".toList), none⟩ 86400).2 = .ok false := by
  decide

/-- C4 amended: `read` never discards the cached `_qt_list`; after any
reload, evaluation keeps using the previously built window list. -/
theorem c4_cache_not_invalidated (tz : Int) (qo : Option (List Char))
    (o : Option (List Char)) (l : List QtSpec) (t : Int) :
    (read ⟨qo, some l⟩ o).qt_cache = some l ∧
    (quiet_time tz (read ⟨qo, some l⟩ o) t).2 = quiet_evalL tz l t := by
  cases o with
  | none => exact ⟨rfl, rfl⟩
  | some v => exact ⟨rfl, rfl⟩

end Hx

